import Mathlib

/-!
Verification of the TechnicalCVGenerator text engine and layout logic.

Python strings are embedded as `List Char`, floating-point widths as `ℚ`.
The font metric (`reportlab.stringWidth`) sums per-glyph widths, so it is
modelled by an arbitrary per-character width function `wfn : Char → ℚ`
summed over the string.  The pyphen hyphenation dictionary is modelled by
an arbitrary break-position table `positions : Str → List ℕ`.
-/

namespace CVGen

/-- Python `str`, embedded as a list of characters. -/
abbrev Str := List Char

/-- `TextProcessor.get_text_width`: additive font metric, the sum of
per-character widths (the behaviour of `reportlab`'s `stringWidth`). -/
def textWidth (wfn : Char → ℚ) (s : Str) : ℚ := (s.map wfn).sum

/-- Python `' '.join(words)`. -/
def joinSp : List Str → Str
  | [] => []
  | [w] => w
  | w :: ws => w ++ ' ' :: joinSp ws

/-- Python `paragraph.split()` — split on runs of whitespace, dropping
empty chunks. -/
def splitWords : Str → List Str
  | [] => []
  | c :: cs =>
    if c.isWhitespace then splitWords cs
    else (c :: cs.takeWhile (fun d => !d.isWhitespace))
      :: splitWords (cs.dropWhile (fun d => !d.isWhitespace))
termination_by s => s.length
decreasing_by
· simp
· have h := (List.dropWhile_sublist (l := cs) (fun d => !d.isWhitespace)).length_le
  simp at h ⊢; omega

/-- Python `text.split('\n')` — split at every newline, keeping empty
chunks (the result is never empty). -/
def splitOnNl : Str → List Str
  | [] => [[]]
  | c :: cs =>
    if c = '\n' then [] :: splitOnNl cs
    else
      match splitOnNl cs with
      | [] => [[c]]
      | p :: ps => (c :: p) :: ps

/-- Python `while result_lines and not result_lines[-1]: result_lines.pop()`:
drop trailing empty lines. -/
def dropTrailingEmpty (ls : List Str) : List Str :=
  (ls.reverse.dropWhile List.isEmpty).reverse

/-- `TextProcessor.hyphenate_word` (src/text_utils.py:44-72): refuse words
of length ≤ 5, otherwise scan the dictionary's break positions left to
right and return the first hyphen-terminated prefix that fits next to the
already-used line width; `(none, word)` when nothing fits (which subsumes
the `if not positions` early return). -/
def hyphenate_word (wfn : Char → ℚ) (positions : Str → List ℕ)
    (word : Str) (max_width current_line_width : ℚ) : Option Str × Str :=
  if word.length ≤ 5 then (none, word)
  else
    match (positions word).find?
        (fun pos => current_line_width + textWidth wfn (word.take pos ++ ['-']) ≤ max_width) with
    | some pos => (some (word.take pos ++ ['-']), word.drop pos)
    | none => (none, word)

/-- The word loop of `TextProcessor.wrap_text` (src/text_utils.py:105-149),
one paragraph at a time.  State: accumulated `lines`, the current line's
words `cur`, and the tracked current width `curW`.  The look-ahead branch
moves an overflow word to the next line when a short (≤ 3 chars) next word
would not fit; the non-fitting branch tries hyphenation (when enabled and
the word is longer than 5 chars) before forcing a break. -/
def wrapWords (wfn : Char → ℚ) (positions : Str → List ℕ)
    (max_width space_width : ℚ) (hyphenate : Bool) :
    List Str → List Str → List Str → ℚ → List Str
  | [], lines, cur, _ => if cur.isEmpty then lines else lines ++ [joinSp cur]
  | word :: rest, lines, cur, curW =>
    let wordW := textWidth wfn word
    if curW + (if cur.isEmpty then 0 else space_width) + wordW ≤ max_width then
      let cur1 := cur ++ [word]
      let curW1 := curW + (if cur.isEmpty then 0 else space_width) + wordW
      match rest.head? with
      | some nextWord =>
        if nextWord.length ≤ 3 ∧ max_width < curW1 + space_width + textWidth wfn nextWord then
          if 1 < cur1.length then
            wrapWords wfn positions max_width space_width hyphenate rest
              (lines ++ [joinSp cur]) [word] (textWidth wfn word)
          else
            wrapWords wfn positions max_width space_width hyphenate rest lines cur1 curW1
        else wrapWords wfn positions max_width space_width hyphenate rest lines cur1 curW1
      | none => wrapWords wfn positions max_width space_width hyphenate rest lines cur1 curW1
    else
      if hyphenate ∧ 5 < word.length then
        match hyphenate_word wfn positions word max_width
            (curW + (if cur.isEmpty then 0 else space_width)) with
        | (some first_part, remainder) =>
          if remainder.isEmpty then
            wrapWords wfn positions max_width space_width hyphenate rest
              (lines ++ [joinSp (cur ++ [first_part])]) [] 0
          else
            wrapWords wfn positions max_width space_width hyphenate rest
              (lines ++ [joinSp (cur ++ [first_part])]) [remainder] (textWidth wfn remainder)
        | (none, _) =>
          wrapWords wfn positions max_width space_width hyphenate rest
            (if cur.isEmpty then lines else lines ++ [joinSp cur]) [word] wordW
      else
        wrapWords wfn positions max_width space_width hyphenate rest
          (if cur.isEmpty then lines else lines ++ [joinSp cur]) [word] wordW

/-- The paragraph loop body of `wrap_text` (src/text_utils.py:94-156):
a whitespace-only paragraph contributes one empty line (`continue`);
any other paragraph contributes its wrapped lines, followed by a blank
separator when the paragraph is not (equal to) the last one. -/
def wrapParStep (wfn : Char → ℚ) (positions : Str → List ℕ)
    (max_width : ℚ) (hyphenate : Bool) (last : Str)
    (acc : List Str) (p : Str) : List Str :=
  if p.all Char.isWhitespace then acc ++ [[]]
  else
    let acc1 := acc ++ wrapWords wfn positions max_width (wfn ' ') hyphenate
      (splitWords p) [] [] 0
    if p ≠ last then acc1 ++ [[]] else acc1

/-- `TextProcessor.wrap_text` (src/text_utils.py:74-162): empty text gives
no lines; otherwise split into paragraphs at newlines, process each
paragraph with `wrapParStep`, and finally drop trailing empty lines. -/
def wrap_text (wfn : Char → ℚ) (positions : Str → List ℕ)
    (text : Str) (max_width : ℚ) (hyphenate : Bool) : List Str :=
  if text.isEmpty then []
  else
    let paragraphs := splitOnNl text
    dropTrailingEmpty <| paragraphs.foldl
      (wrapParStep wfn positions max_width hyphenate (paragraphs.getLastD [])) []

/-- The descending search loop of `truncate_with_ellipsis`
(`for i in range(len(text), 0, -1)`). -/
def truncLoop (wfn : Char → ℚ) (max_width : ℚ) (text : Str) : ℕ → Option Str
  | 0 => none
  | i + 1 =>
    if textWidth wfn (text.take (i + 1) ++ ['.', '.', '.']) ≤ max_width then
      some (text.take (i + 1) ++ ['.', '.', '.'])
    else truncLoop wfn max_width text i

/-- `TextProcessor.truncate_with_ellipsis` (src/text_utils.py:164-190). -/
def truncate_with_ellipsis (wfn : Char → ℚ) (text : Str) (max_width : ℚ) : Str :=
  if textWidth wfn text ≤ max_width then text
  else
    let ellipsis : Str := ['.', '.', '.']
    if max_width ≤ textWidth wfn ellipsis then ellipsis
    else
      match truncLoop wfn max_width text text.length with
      | some r => r
      | none => ellipsis

/-- `TextProcessor.estimate_text_height` (src/text_utils.py:192-206):
wrap the text and multiply the line count by the line height. -/
def estimate_text_height (wfn : Char → ℚ) (positions : Str → List ℕ)
    (text : Str) (max_width line_height : ℚ) (hyphenate : Bool) : ℚ :=
  (wrap_text wfn positions text max_width hyphenate).length * line_height

/-! ## Page-break logic of `TwoColumnTemplate` (src/templates/two_column.py) -/

/-- The geometry fields of `Layout` that the page-break logic reads. -/
structure Layout where
  pageHeight : ℚ
  bannerHeight : ℚ
  topMargin : ℚ
  bottomMargin : ℚ
deriving DecidableEq

/-- The mutable template state the page-break logic touches: the
`current_page` counter, plus a count of redraw-callback invocations
(standing in for the side effect of calling `redraw_function`). -/
structure PageCtx where
  currentPage : ℕ
  redrawCount : ℕ
deriving DecidableEq

/-- Top-of-content cursor of a fresh page:
`page_size[1] - banner_height - top_margin` (two_column.py:1128). -/
def content_top_y (L : Layout) : ℚ :=
  L.pageHeight - L.bannerHeight - L.topMargin

/-- `TwoColumnTemplate.start_new_page` (two_column.py:1138-1148):
`showPage` then either set the page counter (when the argument is truthy —
Python treats `0` as falsy and increments instead) or increment it. -/
def start_new_page (set_page_number : Option ℕ) (s : PageCtx) : PageCtx :=
  match set_page_number with
  | some n => if n = 0 then { s with currentPage := s.currentPage + 1 }
              else { s with currentPage := n }
  | none => { s with currentPage := s.currentPage + 1 }

/-- The hard-coded buffer of `check_page_break` (two_column.py:1113). -/
def pageBreakBuffer : ℚ := 5

/-- `TwoColumnTemplate.check_page_break` (two_column.py:1099-1136): break
(advance the page, invoke the redraw callback when supplied, return the
top-of-content cursor) when `y - needed_height < bottom_margin + buffer`,
otherwise return `y` unchanged. -/
def check_page_break (L : Layout) (y needed_height : ℚ)
    (redraw_function : Bool) (s : PageCtx) : ℚ × PageCtx :=
  if y - needed_height < L.bottomMargin + pageBreakBuffer then
    let s1 := start_new_page none s
    let s2 := if redraw_function then { s1 with redrawCount := s1.redrawCount + 1 } else s1
    (content_top_y L, s2)
  else (y, s)

/-- A CV section renderer as the layout algorithm sees it: it consumes a
cursor and the shared page counter and yields the new cursor and counter
(body-level page breaks included). -/
abbrev SectionFn := ℚ → ℕ → ℚ × ℕ

/-- The column-coordination core of
`TwoColumnTemplate.generate_coordinated_layout` (two_column.py:387-431):
render the two aligned top sections from the same initial cursor, finish
the left column, then choose where the right column resumes — the
top-of-content cursor when `self.current_page > 1 and
current_page_after_left > 1` (both conjuncts read the same counter),
otherwise the right column's own post-profile cursor.  Returns
`(right_y_after_profile, right_current_y, current_page_after_left)`. -/
def coordinated_resume (contentTop : ℚ)
    (skills profile education moreDetails : SectionFn)
    (left_y right_y : ℚ) (startPage : ℕ) : ℚ × ℚ × ℕ :=
  let s := skills left_y startPage
  let pr := profile right_y s.2
  let e := education s.1 pr.2
  let m := moreDetails e.1 e.2
  let pageAfterLeft := m.2
  let rightCurrent :=
    if 1 < pageAfterLeft ∧ 1 < pageAfterLeft then contentTop else pr.1
  (pr.1, rightCurrent, pageAfterLeft)

/-- `TwoColumnTemplate.generate_coordinated_layout` (two_column.py:369-438)
as called from `render` (two_column.py:57,90), which resets
`current_page = 1` immediately before the call. -/
def generate_coordinated_layout (contentTop : ℚ)
    (skills profile education moreDetails experience projects : SectionFn)
    (left_y right_y : ℚ) : ℚ × ℕ :=
  let r := coordinated_resume contentTop skills profile education moreDetails left_y right_y 1
  let ex := experience r.2.1 r.2.2
  projects ex.1 ex.2

/-! ## Content density (src/cv_data.py:350-392, src/cv_generator.py:268-313) -/

/-- The weighted, clamped density formula shared verbatim by
`CVData.get_content_density` and `CVGenerator._calculate_content_density`. -/
def densityScore (profile_length experience_count roles_count
    responsibilities_count education_count projects_count : ℕ) : ℚ :=
  let total_score : ℚ :=
    profile_length * 0.1 / 1000 + experience_count * 0.3 / 4 +
    roles_count * 0.2 / 6 + responsibilities_count * 0.2 / 15 +
    education_count * 0.1 / 3 + projects_count * 0.1 / 4
  max 0 (min 1 total_score)

/-- A role: its list of responsibility strings. -/
structure RoleData where
  responsibilities : List Str

/-- A company: its list of roles. -/
structure CompanyData where
  roles : List RoleData

/-- The parts of `CVData` that the density computation counts. -/
structure CVData where
  profile : Str
  companies : List CompanyData
  educationItems : List Str
  projects : List Str

/-- `roles_count` accumulation loop of `get_content_density`. -/
def rolesCount (d : CVData) : ℕ :=
  (d.companies.map fun c => c.roles.length).sum

/-- `responsibilities_count` accumulation loop of `get_content_density`. -/
def responsibilitiesCount (d : CVData) : ℕ :=
  (d.companies.map fun c => (c.roles.map fun r => r.responsibilities.length).sum).sum

/-- `CVData.get_content_density` (src/cv_data.py:350-392). -/
def get_content_density (d : CVData) : ℚ :=
  densityScore d.profile.length d.companies.length (rolesCount d)
    (responsibilitiesCount d) d.educationItems.length d.projects.length

/-! ## Shared lemmas about the text metric and joining -/

theorem textWidth_append (wfn : Char → ℚ) (a b : Str) :
    textWidth wfn (a ++ b) = textWidth wfn a + textWidth wfn b := by
  simp [textWidth]

theorem textWidth_nonneg {wfn : Char → ℚ} (h : ∀ c, 0 ≤ wfn c) (s : Str) :
    0 ≤ textWidth wfn s := by
  refine List.sum_nonneg ?_
  intro q hq
  obtain ⟨c, _, rfl⟩ := List.mem_map.mp hq
  exact h c

theorem textWidth_pos {wfn : Char → ℚ} (h : ∀ c, 0 < wfn c) {s : Str} (hs : s ≠ []) :
    0 < textWidth wfn s := by
  cases s with
  | nil => exact absurd rfl hs
  | cons c cs =>
    have h1 : textWidth wfn (c :: cs) = wfn c + textWidth wfn cs := by simp [textWidth]
    have h2 := textWidth_nonneg (fun c => (h c).le) cs
    have := h c
    rw [h1]; linarith

theorem joinSp_cons (a : Str) (l : List Str) :
    joinSp (a :: l) = if l.isEmpty then a else a ++ ' ' :: joinSp l := by
  cases l <;> rfl

theorem textWidth_cons (wfn : Char → ℚ) (c : Char) (s : Str) :
    textWidth wfn (c :: s) = wfn c + textWidth wfn s := by
  simp [textWidth]

theorem textWidth_joinSp_snoc (wfn : Char → ℚ) (ws : List Str) (w : Str) :
    textWidth wfn (joinSp (ws ++ [w])) =
      textWidth wfn (joinSp ws) + (if ws.isEmpty then 0 else wfn ' ') + textWidth wfn w := by
  induction ws with
  | nil => simp [joinSp, textWidth]
  | cons a tl ih =>
    cases tl with
    | nil => simp [joinSp, textWidth]; ring
    | cons b tl2 =>
      have e1 : textWidth wfn (joinSp ((a :: b :: tl2) ++ [w]))
          = textWidth wfn a + wfn ' ' + textWidth wfn (joinSp ((b :: tl2) ++ [w])) := by
        have : joinSp ((a :: b :: tl2) ++ [w]) = a ++ ' ' :: joinSp ((b :: tl2) ++ [w]) := rfl
        rw [this, textWidth_append, textWidth_cons]; ring
      have e2 : textWidth wfn (joinSp (a :: b :: tl2))
          = textWidth wfn a + wfn ' ' + textWidth wfn (joinSp (b :: tl2)) := by
        have : joinSp (a :: b :: tl2) = a ++ ' ' :: joinSp (b :: tl2) := rfl
        rw [this, textWidth_append, textWidth_cons]; ring
      rw [e1, ih, e2]
      simp only [List.isEmpty_cons]
      ring

theorem find_first_of_find?_eq_some {α : Type} {p : α → Bool} :
    ∀ {l : List α} {a : α}, l.find? p = some a →
      ∃ l1 l2, l = l1 ++ a :: l2 ∧ p a = true ∧ ∀ x ∈ l1, p x = false := by
  intro l
  induction l with
  | nil => intro a h; simp at h
  | cons b bs ih =>
    intro a h
    cases hb : p b with
    | true =>
      rw [List.find?_cons_of_pos _ hb] at h
      obtain rfl : b = a := by injection h
      exact ⟨[], bs, rfl, hb, by simp⟩
    | false =>
      rw [List.find?_cons_of_neg _ (by simp [hb])] at h
      obtain ⟨l1, l2, rfl, hpa, hl1⟩ := ih h
      refine ⟨b :: l1, l2, rfl, hpa, ?_⟩
      intro x hx
      rcases List.mem_cons.mp hx with rfl | hx2
      · exact hb
      · exact hl1 x hx2

theorem truncLoop_some {wfn : Char → ℚ} {max_width : ℚ} {text : Str} :
    ∀ {n : ℕ} {r : Str}, truncLoop wfn max_width text n = some r →
      ∃ i, 1 ≤ i ∧ i ≤ n ∧ r = text.take i ++ ['.', '.', '.'] := by
  intro n
  induction n with
  | zero => intro r h; simp [truncLoop] at h
  | succ m ih =>
    intro r h
    rw [truncLoop] at h
    split at h
    · obtain rfl : text.take (m + 1) ++ ['.', '.', '.'] = r := by injection h
      exact ⟨m + 1, by omega, le_refl _, rfl⟩
    · obtain ⟨i, h1, h2, h3⟩ := ih h
      exact ⟨i, h1, by omega, h3⟩

/-! ## Claim theorems -/

/-- C1: the height estimator returns exactly the line count produced by the
text-wrapping function for the same text, width, font and hyphenation flag,
multiplied by the line height. -/
theorem estimate_height_parity (wfn : Char → ℚ) (positions : Str → List ℕ)
    (text : Str) (max_width line_height : ℚ) (hyphenate : Bool) :
    estimate_text_height wfn positions text max_width line_height hyphenate
      = (wrap_text wfn positions text max_width hyphenate).length * line_height := rfl

/-- C3: `check_page_break` breaks (incrementing the page index, invoking the
redraw callback when provided, and returning the top-of-content cursor)
exactly when `y - needed_height < bottom_margin + buffer`; otherwise it
returns the cursor unchanged and leaves the state untouched. -/
theorem check_page_break_iff (L : Layout) (y needed_height : ℚ)
    (r : Bool) (s : PageCtx) :
    (y - needed_height < L.bottomMargin + pageBreakBuffer →
      check_page_break L y needed_height r s =
        (content_top_y L, ⟨s.currentPage + 1, s.redrawCount + if r then 1 else 0⟩)) ∧
    (L.bottomMargin + pageBreakBuffer ≤ y - needed_height →
      check_page_break L y needed_height r s = (y, s)) := by
  constructor
  · intro h
    rw [check_page_break, if_pos h]
    cases r <;> simp [start_new_page]
  · intro h
    rw [check_page_break, if_neg (not_lt.mpr h)]

theorem check_page_break_iff_witness :
    check_page_break ⟨842, 150, 36, 50⟩ 80 100 true ⟨1, 0⟩ =
      (content_top_y ⟨842, 150, 36, 50⟩, ⟨2, 1⟩) := by
  have h := (check_page_break_iff ⟨842, 150, 36, 50⟩ 80 100 true ⟨1, 0⟩).1
    (by norm_num [pageBreakBuffer])
  simpa using h

/-- C4 counterexample: with cursor 500, needed height 100, bottom margin 50
and buffer 5 the code performs no break but returns the cursor 500
unchanged, not `500 - 100 = 400` as the claim states. -/
theorem check_page_break_c4_counterexample :
    (check_page_break ⟨842, 150, 36, 50⟩ 500 100 false ⟨1, 0⟩).1 = 500 ∧
    (check_page_break ⟨842, 150, 36, 50⟩ 500 100 false ⟨1, 0⟩).1 ≠ 400 := by
  norm_num [check_page_break, pageBreakBuffer]

/-- C4 amended: with cursor 500, needed height 100, bottom margin 50 and
buffer 5, `check_page_break` performs no break and returns the cursor 500
unchanged; with cursor 80 it breaks, returns the page-top cursor, and
increments the page index by exactly 1. -/
theorem check_page_break_c4_amended :
    check_page_break ⟨842, 150, 36, 50⟩ 500 100 false ⟨1, 0⟩ = (500, ⟨1, 0⟩) ∧
    check_page_break ⟨842, 150, 36, 50⟩ 80 100 false ⟨1, 0⟩ =
      (content_top_y ⟨842, 150, 36, 50⟩, ⟨2, 0⟩) ∧
    (check_page_break ⟨842, 150, 36, 50⟩ 80 100 false ⟨1, 0⟩).2.currentPage = 1 + 1 := by
  refine ⟨?_, ?_, ?_⟩ <;> norm_num [check_page_break, pageBreakBuffer, start_new_page]

/-- C5: after the aligned top sections and the left column's remaining
sections, the right column resumes at the top-of-content cursor exactly
when the shared page index observed after the left column exceeds the
starting page (1, as `render` resets it); otherwise it resumes from its own
post-profile cursor. -/
theorem right_column_resume_iff (contentTop : ℚ)
    (skills profile education moreDetails : SectionFn) (left_y right_y : ℚ) :
    (1 < (coordinated_resume contentTop skills profile education moreDetails
        left_y right_y 1).2.2 →
      (coordinated_resume contentTop skills profile education moreDetails
        left_y right_y 1).2.1 = contentTop) ∧
    ((coordinated_resume contentTop skills profile education moreDetails
        left_y right_y 1).2.2 ≤ 1 →
      (coordinated_resume contentTop skills profile education moreDetails
        left_y right_y 1).2.1 =
      (coordinated_resume contentTop skills profile education moreDetails
        left_y right_y 1).1) := by
  unfold coordinated_resume
  constructor
  · intro h
    simp only at h ⊢
    rw [if_pos ⟨h, h⟩]
  · intro h
    simp only at h ⊢
    rw [if_neg (by simp; omega)]

theorem right_column_resume_iff_witness :
    (coordinated_resume 656 (fun y p => (y - 10, p)) (fun y p => (y - 20, p))
        (fun y p => (y - 5, p)) (fun y p => (y, p)) 700 700 1).2.1 =
    (coordinated_resume 656 (fun y p => (y - 10, p)) (fun y p => (y - 20, p))
        (fun y p => (y - 5, p)) (fun y p => (y, p)) 700 700 1).1 :=
  (right_column_resume_iff 656 (fun y p => (y - 10, p)) (fun y p => (y - 20, p))
      (fun y p => (y - 5, p)) (fun y p => (y, p)) 700 700).2 (by decide)

/-- C8: the content-density score always lies in `[0, 1]`, and the
underlying weighted score is monotone: raising any of the six structural
counts (jointly, hence each singly with the others fixed) never decreases
it. -/
theorem content_density_bounds_mono :
    (∀ d : CVData, 0 ≤ get_content_density d ∧ get_content_density d ≤ 1) ∧
    (∀ p1 p2 e1 e2 r1 r2 s1 s2 d1 d2 j1 j2 : ℕ,
      p1 ≤ p2 → e1 ≤ e2 → r1 ≤ r2 → s1 ≤ s2 → d1 ≤ d2 → j1 ≤ j2 →
      densityScore p1 e1 r1 s1 d1 j1 ≤ densityScore p2 e2 r2 s2 d2 j2) := by
  constructor
  · intro d
    refine ⟨le_max_left _ _, max_le (by norm_num) (min_le_left _ _)⟩
  · intro p1 p2 e1 e2 r1 r2 s1 s2 d1 d2 j1 j2 h1 h2 h3 h4 h5 h6
    unfold densityScore
    refine max_le_max le_rfl (min_le_min le_rfl ?_)
    gcongr

theorem content_density_bounds_mono_witness :
    densityScore 0 0 0 0 0 0 ≤ densityScore 1 2 3 4 5 6 :=
  content_density_bounds_mono.2 0 1 0 2 0 3 0 4 0 5 0 6
    (by decide) (by decide) (by decide) (by decide) (by decide) (by decide)

/-- C6: `hyphenate_word` never hyphenates a word of length ≤ 5; when it
returns a prefix, that prefix comes from the first break position (in the
table's left-to-right order) whose hyphen-terminated prefix fits next to
the already-used line width; when no position fits it signals no
hyphenation. -/
theorem hyphenate_word_first_fit (wfn : Char → ℚ) (positions : Str → List ℕ)
    (word : Str) (max_width current_line_width : ℚ) :
    (word.length ≤ 5 →
      hyphenate_word wfn positions word max_width current_line_width = (none, word)) ∧
    (∀ fp rem,
      hyphenate_word wfn positions word max_width current_line_width = (some fp, rem) →
      ∃ l1 pos l2, positions word = l1 ++ pos :: l2 ∧
        current_line_width + textWidth wfn (word.take pos ++ ['-']) ≤ max_width ∧
        (∀ q ∈ l1, ¬ current_line_width + textWidth wfn (word.take q ++ ['-']) ≤ max_width) ∧
        fp = word.take pos ++ ['-'] ∧ rem = word.drop pos) ∧
    ((∀ pos ∈ positions word,
        ¬ current_line_width + textWidth wfn (word.take pos ++ ['-']) ≤ max_width) →
      hyphenate_word wfn positions word max_width current_line_width = (none, word)) := by
  refine ⟨?_, ?_, ?_⟩
  · intro h
    rw [hyphenate_word, if_pos h]
  · intro fp rem h
    rw [hyphenate_word] at h
    split at h
    · simp at h
    · split at h
      case _ pos hfind =>
        obtain ⟨l1, l2, hsplit, hp, hl1⟩ := find_first_of_find?_eq_some hfind
        refine ⟨l1, pos, l2, hsplit, by simpa using hp, ?_, ?_, ?_⟩
        · intro q hq
          have := hl1 q hq
          simpa using this
        · exact (Prod.mk.injEq _ _ _ _ ▸ h).1.symm.rec (by injection h with h1 h2; exact (Option.some.inj h1).symm)
        · injection h with h1 h2; exact h2.symm
      case _ hfind => simp at h
  · intro h
    rw [hyphenate_word]
    split
    · rfl
    · rw [List.find?_eq_none.mpr (by intro pos hpos; simpa using h pos hpos)]

theorem hyphenate_word_first_fit_witness :
    hyphenate_word (fun _ => (1 : ℚ)) (fun _ => []) ['a', 'b'] 10 0 = (none, ['a', 'b']) :=
  (hyphenate_word_first_fit (fun _ => (1 : ℚ)) (fun _ => []) ['a', 'b'] 10 0).1 (by decide)

/-- C9: hyphenation conserves characters — a returned prefix always ends in
a hyphen and, with that hyphen removed, concatenates with the remainder to
the original word; a `none` result carries the word unchanged. -/
theorem hyphenate_word_conserves (wfn : Char → ℚ) (positions : Str → List ℕ)
    (word : Str) (max_width current_line_width : ℚ) :
    (∀ fp rem,
      hyphenate_word wfn positions word max_width current_line_width = (some fp, rem) →
      ∃ stem, fp = stem ++ ['-'] ∧ stem ++ rem = word) ∧
    (∀ rem,
      hyphenate_word wfn positions word max_width current_line_width = (none, rem) →
      rem = word) := by
  constructor
  · intro fp rem h
    rw [hyphenate_word] at h
    split at h
    · simp at h
    · split at h
      case _ pos hfind =>
        injection h with h1 h2
        exact ⟨word.take pos, (Option.some.inj h1).symm, by rw [← h2]; exact List.take_append_drop pos word⟩
      case _ => simp at h
  · intro rem h
    rw [hyphenate_word] at h
    split at h
    · injection h with h1 h2; exact h2.symm
    · split at h
      · simp at h
      · injection h with h1 h2; exact h2.symm

theorem hyphenate_word_conserves_witness :
    ∃ stem : Str, (['a', 'b', '-'] : Str) = stem ++ ['-'] ∧
      stem ++ ['c', 'd', 'e', 'f', 'g'] = ['a', 'b', 'c', 'd', 'e', 'f', 'g'] :=
  (hyphenate_word_conserves (fun _ => (1 : ℚ)) (fun _ => [2])
      ['a', 'b', 'c', 'd', 'e', 'f', 'g'] 10 0).1
    ['a', 'b', '-'] ['c', 'd', 'e', 'f', 'g'] (by
      rw [hyphenate_word, if_neg (by decide)]
      show (match List.find? _ [2] with
        | some pos => (some (List.take pos ['a', 'b', 'c', 'd', 'e', 'f', 'g'] ++ ['-']),
            List.drop pos ['a', 'b', 'c', 'd', 'e', 'f', 'g'])
        | none => (none, ['a', 'b', 'c', 'd', 'e', 'f', 'g'])) = _
      rw [List.find?_cons_of_pos _ (by norm_num [textWidth])]
      rfl)

/-- C10: `truncate_with_ellipsis` is the identity on text that fits; on any
other input it returns either the bare ellipsis or a non-empty prefix of
the text followed by the ellipsis. -/
theorem truncate_with_ellipsis_spec (wfn : Char → ℚ) (text : Str) (max_width : ℚ) :
    (textWidth wfn text ≤ max_width →
      truncate_with_ellipsis wfn text max_width = text) ∧
    (¬ textWidth wfn text ≤ max_width →
      truncate_with_ellipsis wfn text max_width = ['.', '.', '.'] ∨
      ∃ i, 1 ≤ i ∧ i ≤ text.length ∧ text.take i ≠ [] ∧
        truncate_with_ellipsis wfn text max_width = text.take i ++ ['.', '.', '.']) := by
  constructor
  · intro h
    rw [truncate_with_ellipsis, if_pos h]
  · intro h
    rw [truncate_with_ellipsis, if_neg h]
    simp only
    split
    · exact Or.inl rfl
    · split
      case _ r hloop =>
        obtain ⟨i, h1, h2, rfl⟩ := truncLoop_some hloop
        refine Or.inr ⟨i, h1, h2, ?_, rfl⟩
        intro hnil
        rcases List.take_eq_nil_iff.mp hnil with h0 | h0
        · omega
        · subst h0; simp at h2; omega
      case _ => exact Or.inl rfl

theorem truncate_with_ellipsis_spec_witness :
    truncate_with_ellipsis (fun _ => (1 : ℚ)) ['a', 'b'] 5 = ['a', 'b'] :=
  (truncate_with_ellipsis_spec (fun _ => (1 : ℚ)) ['a', 'b'] 5).1 (by
    norm_num [textWidth])

/-! ## The width-bound invariant of the word loop (claim C2) -/

theorem wrapWords_width_le {wfn : Char → ℚ} (positions : Str → List ℕ)
    {max_width : ℚ} :
    ∀ (words lines cur : List Str) (curW : ℚ),
      (∀ w ∈ words, textWidth wfn w ≤ max_width) →
      (∀ l ∈ lines, textWidth wfn l ≤ max_width) →
      curW = textWidth wfn (joinSp cur) →
      (cur ≠ [] → curW ≤ max_width) →
      ∀ l ∈ wrapWords wfn positions max_width (wfn ' ') false words lines cur curW,
        textWidth wfn l ≤ max_width := by
  intro words
  induction words with
  | nil =>
    intro lines cur curW _ hlines hcurW hcur l hl
    rw [wrapWords] at hl
    split at hl
    case isTrue hc =>
      exact hlines l hl
    case isFalse hc =>
      rcases List.mem_append.mp hl with h | h
      · exact hlines l h
      · rw [List.mem_singleton.mp h, ← hcurW]
        exact hcur (by simpa using hc)
  | cons word rest ih =>
    intro lines cur curW hwords hlines hcurW hcur l hl
    have hword : textWidth wfn word ≤ max_width := hwords word (List.mem_cons_self word rest)
    have hwords2 : ∀ w ∈ rest, textWidth wfn w ≤ max_width :=
      fun w hw => hwords w (List.mem_cons_of_mem _ hw)
    have hcur1W : curW + (if cur.isEmpty then 0 else wfn ' ') + textWidth wfn word
        = textWidth wfn (joinSp (cur ++ [word])) := by
      rw [textWidth_joinSp_snoc, hcurW]
    have hsingleW : textWidth wfn word = textWidth wfn (joinSp [word]) := rfl
    have hflush : ∀ l2 ∈ (if cur.isEmpty then lines else lines ++ [joinSp cur]),
        textWidth wfn l2 ≤ max_width := by
      intro l2 hl2
      split at hl2
      case isTrue => exact hlines l2 hl2
      case isFalse hc =>
        rcases List.mem_append.mp hl2 with h | h
        · exact hlines l2 h
        · rw [List.mem_singleton.mp h, ← hcurW]
          exact hcur (by simpa using hc)
    simp only [wrapWords] at hl
    generalize hpd : (if cur.isEmpty = true then (0 : ℚ) else wfn ' ') = pad at hl hcur1W
    generalize hfl : (if cur.isEmpty = true then lines else lines ++ [joinSp cur]) = flushed
      at hl hflush
    split at hl
    case isTrue hfit =>
      split at hl
      case h_1 nextWord _ =>
        split at hl
        case isTrue =>
          split at hl
          case isTrue hlen =>
            have hcne : cur ≠ [] := by
              intro hc; subst hc; simp at hlen
            refine ih _ _ _ hwords2 ?_ hsingleW (fun _ => hword) l hl
            intro l2 hl2
            rcases List.mem_append.mp hl2 with h | h
            · exact hlines l2 h
            · rw [List.mem_singleton.mp h, ← hcurW]
              exact hcur hcne
          case isFalse =>
            exact ih _ _ _ hwords2 hlines hcur1W (fun _ => hfit) l hl
        case isFalse =>
          exact ih _ _ _ hwords2 hlines hcur1W (fun _ => hfit) l hl
      case h_2 =>
        exact ih _ _ _ hwords2 hlines hcur1W (fun _ => hfit) l hl
    case isFalse hnofit =>
      rw [if_neg (by simp)] at hl
      exact ih _ _ _ hwords2 hflush hsingleW (fun _ => hword) l hl

theorem mem_of_mem_dropTrailingEmpty {l : Str} {ls : List Str}
    (h : l ∈ dropTrailingEmpty ls) : l ∈ ls := by
  rw [dropTrailingEmpty, List.mem_reverse] at h
  exact List.mem_reverse.mp ((List.dropWhile_sublist _).subset h)

theorem mem_foldl_wrapParStep {wfn : Char → ℚ} {positions : Str → List ℕ}
    {max_width : ℚ} {hyphenate : Bool} {last : Str} :
    ∀ (ps : List Str) (acc : List Str) (l : Str),
      l ∈ ps.foldl (wrapParStep wfn positions max_width hyphenate last) acc →
      l ∈ acc ∨ l = [] ∨ ∃ p ∈ ps,
        l ∈ wrapWords wfn positions max_width (wfn ' ') hyphenate (splitWords p) [] [] 0 := by
  intro ps
  induction ps with
  | nil =>
    intro acc l hl
    exact Or.inl hl
  | cons p ps ih =>
    intro acc l hl
    rw [List.foldl_cons] at hl
    rcases ih _ l hl with h | h | ⟨q, hq, hW⟩
    · rw [wrapParStep] at h
      split at h
      · rcases List.mem_append.mp h with h2 | h2
        · exact Or.inl h2
        · exact Or.inr (Or.inl (List.mem_singleton.mp h2))
      · split at h
        · rcases List.mem_append.mp h with h2 | h2
          · rcases List.mem_append.mp h2 with h3 | h3
            · exact Or.inl h3
            · exact Or.inr (Or.inr ⟨p, List.mem_cons_self p ps, h3⟩)
          · exact Or.inr (Or.inl (List.mem_singleton.mp h2))
        · rcases List.mem_append.mp h with h2 | h2
          · exact Or.inl h2
          · exact Or.inr (Or.inr ⟨p, List.mem_cons_self p ps, h2⟩)
    · exact Or.inr (Or.inl h)
    · exact Or.inr (Or.inr ⟨q, List.mem_cons_of_mem _ hq, hW⟩)

/-- C2: with a non-negative additive width measure, if every word of the
text individually measures at most `max_width` and hyphenation is off,
then every non-empty line produced by `wrap_text` measures at most
`max_width`. -/
theorem wrap_text_width_bound (wfn : Char → ℚ) (positions : Str → List ℕ)
    (text : Str) (max_width : ℚ)
    (hwords : ∀ p ∈ splitOnNl text, ∀ w ∈ splitWords p, textWidth wfn w ≤ max_width) :
    ∀ l ∈ wrap_text wfn positions text max_width false,
      l ≠ [] → textWidth wfn l ≤ max_width := by
  intro l hl hlne
  rw [wrap_text] at hl
  split at hl
  · simp at hl
  · have h1 := mem_of_mem_dropTrailingEmpty hl
    rcases mem_foldl_wrapParStep _ _ _ h1 with h | h | ⟨p, hp, hW⟩
    · simp at h
    · exact absurd h hlne
    · refine wrapWords_width_le positions (splitWords p) [] [] 0
        (hwords p hp) (by simp) (by simp [joinSp, textWidth]) (by simp) l hW

theorem wrap_text_width_bound_witness :
    textWidth (fun _ => (1 : ℚ)) ['a'] ≤ 1 := by
  have hm : wrap_text (fun _ => (1 : ℚ)) (fun _ => []) ['a'] 1 false = [['a']] := by
    norm_num +decide [wrap_text, splitOnNl, wrapParStep, dropTrailingEmpty, wrapWords,
      joinSp, textWidth, splitWords]
  refine wrap_text_width_bound (fun _ => (1 : ℚ)) (fun _ => []) ['a'] 1 ?_ ['a'] ?_ (by decide)
  · intro p hp w hw
    have hps : splitOnNl ['a'] = [['a']] := rfl
    rw [hps] at hp
    rw [List.mem_singleton.mp hp] at hw
    have hws : splitWords ['a'] = [['a']] := by
      simp +decide [splitWords]
    rw [hws] at hw
    rw [List.mem_singleton.mp hw]
    norm_num [textWidth]
  · rw [hm]
    exact List.mem_singleton.mpr rfl

/-! ## Degenerate inputs: empty text and non-positive width (claim C7) -/

theorem splitWords_ne_nil : ∀ (s : Str), ∀ w ∈ splitWords s, w ≠ [] := by
  intro s
  induction s using splitWords.induct with
  | case1 => simp [splitWords]
  | case2 c cs hws ih =>
    rw [splitWords, if_pos hws]; exact ih
  | case3 c cs hws ih =>
    rw [splitWords, if_neg hws]
    intro w hw
    rcases List.mem_cons.mp hw with rfl | h2
    · simp
    · exact ih w h2

theorem splitWords_all_ws : ∀ (s : Str), s.all Char.isWhitespace = true → splitWords s = [] := by
  intro s
  induction s using splitWords.induct with
  | case1 => intro _; simp [splitWords]
  | case2 c cs hws ih =>
    intro h
    rw [splitWords, if_pos hws]
    exact ih (by simp at h ⊢; exact h.2)
  | case3 c cs hws ih =>
    intro h
    simp at h
    exact absurd h.1 (by simpa using hws)

theorem hyphenate_word_none_of_nonpos {wfn : Char → ℚ} (positions : Str → List ℕ)
    {max_width used : ℚ} (hpos : ∀ c, 0 < wfn c) (hmw : max_width ≤ 0) (hused : 0 ≤ used)
    (word : Str) :
    hyphenate_word wfn positions word max_width used = (none, word) := by
  rw [hyphenate_word]
  split
  · rfl
  · have hfind : (positions word).find?
        (fun pos => used + textWidth wfn (word.take pos ++ ['-']) ≤ max_width) = none := by
      refine List.find?_eq_none.mpr ?_
      intro pos _
      simp only [decide_eq_true_eq]
      have h1 : textWidth wfn (word.take pos ++ ['-'])
          = textWidth wfn (word.take pos) + wfn '-' := by
        rw [textWidth_append]; simp [textWidth]
      have h2 := textWidth_nonneg (fun c => (hpos c).le) (word.take pos)
      have h3 := hpos '-'
      intro hcon
      rw [h1] at hcon
      linarith
    rw [hfind]

theorem wrapWords_forced {wfn : Char → ℚ} (positions : Str → List ℕ)
    {max_width : ℚ} (hy : Bool) (hpos : ∀ c, 0 < wfn c) (hmw : max_width ≤ 0) :
    ∀ (words lines cur : List Str) (curW : ℚ),
      (∀ w ∈ words, w ≠ []) → 0 ≤ curW →
      wrapWords wfn positions max_width (wfn ' ') hy words lines cur curW
        = (if cur.isEmpty then lines else lines ++ [joinSp cur]) ++ words := by
  intro words
  induction words with
  | nil =>
    intro lines cur curW _ _
    rw [wrapWords, List.append_nil]
  | cons word rest ih =>
    intro lines cur curW hne hcw
    have hwne : word ≠ [] := hne word (List.mem_cons_self word rest)
    have hne2 : ∀ w ∈ rest, w ≠ [] := fun w hw => hne w (List.mem_cons_of_mem _ hw)
    have hwpos : 0 < textWidth wfn word := textWidth_pos hpos hwne
    have hpad : 0 ≤ (if cur.isEmpty then (0 : ℚ) else wfn ' ') := by
      split
      · exact le_refl 0
      · exact (hpos ' ').le
    have hrec := ih (if cur.isEmpty then lines else lines ++ [joinSp cur]) [word]
      (textWidth wfn word) hne2 hwpos.le
    simp only [wrapWords]
    rw [if_neg (by push_neg; linarith)]
    by_cases hhy : (hy = true) ∧ 5 < word.length
    · rw [if_pos hhy]
      rw [hyphenate_word_none_of_nonpos positions hpos hmw (add_nonneg hcw hpad) word]
      exact hrec.trans (by simp [joinSp])
    · rw [if_neg hhy]
      exact hrec.trans (by simp [joinSp])

theorem filter_not_dropWhile {α : Type} (q : α → Bool) :
    ∀ l : List α, (l.dropWhile q).filter (fun x => !q x) = l.filter (fun x => !q x) := by
  intro l
  induction l with
  | nil => rfl
  | cons a tl ih =>
    cases hq : q a
    · rw [List.dropWhile_cons_of_neg (by simp [hq])]
    · rw [List.dropWhile_cons_of_pos hq, ih, List.filter_cons_of_neg (by simp [hq])]

theorem filter_dropTrailingEmpty (ls : List Str) :
    (dropTrailingEmpty ls).filter (fun l => !l.isEmpty)
      = ls.filter (fun l => !l.isEmpty) := by
  rw [dropTrailingEmpty, List.filter_reverse, filter_not_dropWhile List.isEmpty ls.reverse,
    List.filter_reverse, List.reverse_reverse]

theorem filter_foldl_wrapParStep {wfn : Char → ℚ} (positions : Str → List ℕ)
    {max_width : ℚ} (hy : Bool) (last : Str)
    (hpos : ∀ c, 0 < wfn c) (hmw : max_width ≤ 0) :
    ∀ (ps : List Str) (acc : List Str),
      (ps.foldl (wrapParStep wfn positions max_width hy last) acc).filter (fun l => !l.isEmpty)
        = acc.filter (fun l => !l.isEmpty) ++ (ps.map splitWords).flatten := by
  intro ps
  induction ps with
  | nil => intro acc; simp
  | cons p ps ih =>
    intro acc
    have hself : (splitWords p).filter (fun l => !l.isEmpty) = splitWords p := by
      refine List.filter_eq_self.mpr ?_
      intro w hw
      simpa using splitWords_ne_nil p w hw
    rw [List.foldl_cons, ih]
    rw [wrapParStep]
    split
    case isTrue hws =>
      simp [List.filter_append, splitWords_all_ws p hws]
    case isFalse hws =>
      simp only
      rw [wrapWords_forced positions hy hpos hmw (splitWords p) [] [] 0
        (splitWords_ne_nil p) le_rfl]
      split
      case isTrue =>
        simp [List.filter_append, hself]
      case isFalse =>
        simp [List.filter_append, hself]

/-- C7: wrapping the empty text yields no lines; and for any non-positive
width (with every character — hence every word — of strictly positive
measured width), `wrap_text` terminates with every word of the input on a
line of its own: its non-empty lines are exactly the words of the
paragraphs, in order. -/
theorem wrap_text_degenerate (wfn : Char → ℚ) (positions : Str → List ℕ)
    (max_width : ℚ) (hy : Bool)
    (hpos : ∀ c, 0 < wfn c) (hmw : max_width ≤ 0) :
    wrap_text wfn positions [] max_width hy = [] ∧
    ∀ text : Str,
      (wrap_text wfn positions text max_width hy).filter (fun l => !l.isEmpty)
        = ((splitOnNl text).map splitWords).flatten := by
  constructor
  · rfl
  · intro text
    simp only [wrap_text]
    split
    case isTrue h =>
      have ht : text = [] := by simpa using h
      subst ht
      simp [splitOnNl, splitWords]
    case isFalse h =>
      rw [filter_dropTrailingEmpty,
        filter_foldl_wrapParStep positions hy ((splitOnNl text).getLastD []) hpos hmw]
      simp

theorem wrap_text_degenerate_witness :
    wrap_text (fun _ => (1 : ℚ)) (fun _ => []) [] (-1) true = [] :=
  (wrap_text_degenerate (fun _ => (1 : ℚ)) (fun _ => []) (-1) true
    (fun _ => by norm_num) (by norm_num)).1

end CVGen
